import Mathlib

/-!
Verification of the Selection-Marker Editing and Marker-Scoped Export Engine
of the video-timeline editor (shallow embedding of
src/features/editor/timeline/selection-group-overlay.tsx and the
START_MARKER_EXPORT subscriber of the navbar component).

Times are modelled as rationals (milliseconds).  Pixel coordinates are not
modelled directly: the drag handlers convert the pointer position to a
proposed time through the linear bijection unitsToTimeMs, so a drag update
is fully determined by the proposed start (move, resize-left) or proposed
end (resize-right) in milliseconds, which we quantify over.
-/

/-- Marker of the overlay store (interface SelectionMarker).  The optional
videoItemId field only records which video item the marker is anchored to
and plays no role in the drag, scheduler, persistence or export logic, so
it is omitted from the embedding. -/
structure Marker where
  id : String
  label : String
  startMs : ℚ
  endMs : ℚ
deriving DecidableEq, Repr

/-- Drag gesture kind (DragState.type). -/
inductive DragType
  | move
  | resizeLeft
  | resizeRight
deriving DecidableEq, Repr

/-- JavaScript Array.prototype.findIndex, with none for the -1 result. -/
def jsFindIndex {α : Type} (p : α → Bool) : List α → Option Nat
  | [] => none
  | x :: xs => if p x then some 0 else (jsFindIndex p xs).map (· + 1)

/-- Insertion step of a stable sort by startMs: the new element goes after
every element whose key is less than or equal to its own, matching the
stable Array.prototype.sort with comparator (a, b) => a.startMs - b.startMs. -/
def insertByStart (x : Marker) : List Marker → List Marker
  | [] => [x]
  | y :: ys => if y.startMs ≤ x.startMs then y :: insertByStart x ys else x :: y :: ys

/-- Stable sort of the marker list by startMs, as used by handleMouseMove,
handleSequentialPlay and the render path. -/
def sortByStart (ms : List Marker) : List Marker :=
  ms.foldl (fun acc x => insertByStart x acc) []

/-- Neighbor lookup of handleMouseMove: sort the store by startMs, locate the
dragged marker, and take the entries just before and just after it.  A missing
marker id gives index -1 in the source, hence a null previous marker and
sorted[0] as the (unused) next marker. -/
def dragNeighbors (ms : List Marker) (mid : String) : Option Marker × Option Marker :=
  let sorted := sortByStart ms
  match jsFindIndex (fun m => m.id == mid) sorted with
  | none => (none, sorted.get? 0)
  | some i => (if i = 0 then none else sorted.get? (i - 1), sorted.get? (i + 1))

/-- Clamp of a proposed new start for a move drag: at least 0, at least the
previous marker's end, and at most nextMarker.startMs minus the duration. -/
def clampMove (prevM nextM : Option Marker) (p dur : ℚ) : ℚ :=
  let c1 := max 0 p
  let c2 := match prevM with
    | some pm => max c1 pm.endMs
    | none => c1
  match nextM with
  | some nm => min c2 (nm.startMs - dur)
  | none => c2

/-- Clamp of a proposed new start for a resize-left drag: at least 0, at least
the previous marker's end, and at most endMs - 100 (the minimum duration). -/
def clampLeft (prevM : Option Marker) (p endMs : ℚ) : ℚ :=
  let c1 := max 0 p
  let c2 := match prevM with
    | some pm => max c1 pm.endMs
    | none => c1
  min c2 (endMs - 100)

/-- Clamp of a proposed new end for a resize-right drag: at least
startMs + 100, and at most the next marker's start when one exists. -/
def clampRight (nextM : Option Marker) (p startMs : ℚ) : ℚ :=
  let c1 := max (startMs + 100) p
  match nextM with
  | some nm => min c1 nm.startMs
  | none => c1

/-- Update of the dragged marker inside the setMarkers map of handleMouseMove. -/
def updOne (prevM nextM : Option Marker) (ty : DragType) (p : ℚ) (m : Marker) : Marker :=
  match ty with
  | .move =>
    let dur := m.endMs - m.startMs
    let s := clampMove prevM nextM p dur
    { m with startMs := s, endMs := s + dur }
  | .resizeLeft => { m with startMs := clampLeft prevM p m.endMs }
  | .resizeRight => { m with endMs := clampRight nextM p m.startMs }

/-- Edge of the marker being edited by a gesture of the given type; this is
the value the source assigns to previewTime. -/
def editedEdge (ty : DragType) (m : Marker) : ℚ :=
  match ty with
  | .resizeRight => m.endMs
  | _ => m.startMs

/-- One drag update of the marker store (the setMarkers call of
handleMouseMove), for a proposed new start (move, resize-left) or proposed
new end (resize-right) already converted to milliseconds. -/
def dragUpdate (ms : List Marker) (mid : String) (ty : DragType) (p : ℚ) : List Marker :=
  let pn := dragNeighbors ms mid
  ms.map (fun m => if m.id = mid then updOne pn.1 pn.2 ty p m else m)

/-- Value of previewTime after the setMarkers map of handleMouseMove: the
edited edge of the updated marker; when several markers match the id, the
last assignment wins, and when none matches, previewTime stays null. -/
def dragPreview (ms : List Marker) (mid : String) (ty : DragType) (p : ℚ) : Option ℚ :=
  let pn := dragNeighbors ms mid
  ((ms.filter (fun m => m.id == mid)).getLast?).map
    (fun m => editedEdge ty (updOne pn.1 pn.2 ty p m))

/-- Deletion of the selected markers (DELETE_SELECTED_MARKERS subscriber). -/
def deleteMarkers (ms : List Marker) (ids : List String) : List Marker :=
  ms.filter (fun m => !(ids.contains m.id))

/-- Store operation for sequences of drag updates and deletions. -/
inductive StoreOp
  | drag (mid : String) (ty : DragType) (p : ℚ)
  | deleteSel (ids : List String)

/-- Application of one store operation. -/
def applyOp (ms : List Marker) : StoreOp → List Marker
  | .drag mid ty p => dragUpdate ms mid ty p
  | .deleteSel ids => deleteMarkers ms ids

/-- Application of a sequence of store operations. -/
def applyOps (ms : List Marker) (ops : List StoreOp) : List Marker :=
  ops.foldl applyOp ms

/-- Application of a sequence of drag updates only. -/
def applyDrags (ms : List Marker) (ops : List (String × DragType × ℚ)) : List Marker :=
  ops.foldl (fun acc op => dragUpdate acc op.1 op.2.1 op.2.2) ms

/-- Non-overlap property of the specification: whenever one marker starts
strictly before another, it must also end by the time the other starts. -/
def pairwiseNonOverlap (ms : List Marker) : Prop :=
  ∀ m1 ∈ ms, ∀ m2 ∈ ms, m1.startMs < m2.startMs → m1.endMs ≤ m2.startMs

/-- Minimum-duration property: every marker is at least 100 ms long. -/
def minDurOK (ms : List Marker) : Prop :=
  ∀ m ∈ ms, m.startMs + 100 ≤ m.endMs

/-- Strict separation: two markers with different ids are strictly ordered
and do not overlap. -/
def separated (ms : List Marker) : Prop :=
  ∀ m1 ∈ ms, ∀ m2 ∈ ms, m1.id ≠ m2.id →
    (m1.startMs < m2.startMs ∧ m1.endMs ≤ m2.startMs) ∨
    (m2.startMs < m1.startMs ∧ m2.endMs ≤ m1.startMs)

/-- Well-formed marker store: distinct ids, minimum durations, and strict
separation.  Stores produced by loading a persisted group with distinct
labels and non-overlapping intervals of at least 100 ms satisfy this. -/
def wfStore (ms : List Marker) : Prop :=
  (ms.map Marker.id).Nodup ∧ minDurOK ms ∧ separated ms

instance : DecidablePred pairwiseNonOverlap := fun ms => by
  unfold pairwiseNonOverlap; infer_instance

instance : DecidablePred minDurOK := fun ms => by
  unfold minDurOK; infer_instance

instance : DecidablePred separated := fun ms => by
  unfold separated; infer_instance

instance : DecidablePred wfStore := fun ms => by
  unfold wfStore; infer_instance

/-- Containment test of handleSequentialPlay: the current time lies in the
closed interval of the marker. -/
def markerContains (m : Marker) (t : ℚ) : Bool :=
  decide (m.startMs ≤ t) && decide (t ≤ m.endMs)

/-- Starting index of sequential play over the sorted selected markers:
first marker containing the current time, else first marker starting after
it, else index 0. -/
def seqStartIndex (sorted : List Marker) (t : ℚ) : ℕ :=
  match jsFindIndex (fun m => markerContains m t) sorted with
  | some i => i
  | none =>
    match jsFindIndex (fun m => decide (t < m.startMs)) sorted with
    | some i => i
    | none => 0

/-- Start of handleSequentialPlay when no session is active: with an empty
selection the handler reports an error and does nothing (none); otherwise it
filters the store to the selected markers, sorts them by startMs, computes
the starting index and seeks to that marker's start.  The result carries the
starting index and the seek time.  An index beyond the sorted list (possible
only when no selected id matches a marker) would crash the source reading
startMs of undefined, modelled as none. -/
def handleSequentialPlay (ms : List Marker) (selectedIds : List String) (t : ℚ) :
    Option (ℕ × ℚ) :=
  if selectedIds.isEmpty then none
  else
    let sorted := sortByStart (ms.filter (fun m => selectedIds.contains m.id))
    let i := seqStartIndex sorted t
    (sorted.get? i).map (fun m => (i, m.startMs))

/-- Dynamic JSON-like value for persisted timeframes, as seen by the
LOAD_SELECTION_GROUP subscriber after JSON parsing.  String and boolean
leaves are outside this model (the persisted records store numeric interval
fields); undefined is represented by a missing field. -/
inductive JVal
  | num (q : ℚ)
  | null
  | arr (xs : List JVal)
  | obj (fields : List (String × JVal))

/-- JavaScript truthiness of a modelled value (undefined is handled at the
access sites). -/
def truthy : JVal → Bool
  | .num q => decide (q ≠ 0)
  | .null => false
  | .arr _ => true
  | .obj _ => true

/-- Property access v.k: on null it throws a TypeError (error), on an object
it looks the key up, and on any other value it yields undefined (none). -/
def getField : JVal → String → Except Unit (Option JVal)
  | .null, _ => .error ()
  | .obj fields, k => .ok ((fields.find? (fun f => f.1 == k)).map (·.2))
  | _, _ => .ok none

/-- Value of the expression tf.k1 or-else tf.k2 or-else 0 (the JavaScript
short-circuit chain picks the first truthy operand). -/
def pickField (tf : JVal) (k1 k2 : String) : Except Unit JVal := do
  let v1 ← getField tf k1
  match v1 with
  | some v =>
    if truthy v then pure v
    else do
      let v2 ← getField tf k2
      match v2 with
      | some w => pure (if truthy w then w else .num 0)
      | none => pure (.num 0)
  | none => do
    let v2 ← getField tf k2
    match v2 with
    | some w => pure (if truthy w then w else .num 0)
    | none => pure (.num 0)

/-- JavaScript ToNumber of a picked value, with none for NaN.  Coercion of
array values to numbers (via string joining) is modelled as NaN; arrays whose
string form is numeric are outside the model. -/
def toNumber : JVal → Option ℚ
  | .num q => some q
  | .null => some 0
  | .arr _ => none
  | .obj _ => none

/-- Start value of one timeframe entry in seconds:
Array.isArray(tf) ? tf[0] : tf.start or-else tf.from or-else 0, followed by
numeric coercion; indexing past the end of an array gives undefined, whose
coercion is NaN (none). -/
def entryRawStart (tf : JVal) : Except Unit (Option ℚ) :=
  match tf with
  | .arr xs =>
    .ok (match xs.get? 0 with
      | some v => toNumber v
      | none => none)
  | _ => do
    let v ← pickField tf "start" "from"
    pure (toNumber v)

/-- End value of one timeframe entry in seconds, symmetric to the start. -/
def entryRawEnd (tf : JVal) : Except Unit (Option ℚ) :=
  match tf with
  | .arr xs =>
    .ok (match xs.get? 1 with
      | some v => toNumber v
      | none => none)
  | _ => do
    let v ← pickField tf "end" "to"
    pure (toNumber v)

/-- Loaded marker before NaN filtering: the start and end are in
milliseconds, none standing for NaN. -/
structure LMarker where
  id : String
  label : String
  startMs : Option ℚ
  endMs : Option ℚ
  groupId : String
deriving DecidableEq, Repr

/-- Conversion of the entries of an object-shaped timeframes value to
markers, in order.  A thrown TypeError (null entry) aborts the whole
conversion (none): the subscriber has already cleared the store and never
reaches the final setMarkers call. -/
def loadMarkers (gid : String) : List (String × JVal) → Option (List LMarker)
  | [] => some []
  | (label, tf) :: rest =>
    match entryRawStart tf, entryRawEnd tf with
    | .ok s, .ok e =>
      (loadMarkers gid rest).map
        (fun tail =>
          { id := gid ++ "-" ++ label
            label := label
            startMs := s.map (· * 1000)
            endMs := e.map (· * 1000)
            groupId := gid } :: tail)
    | _, _ => none

/-- Markers produced by the LOAD_SELECTION_GROUP subscriber from a parsed
timeframes value: only a non-array object is converted (typeof timeframes
is checked to be object and Array.isArray to be false), so a top-level
array or number yields no markers; a null value makes Object.entries throw
(none). -/
def loadTimeframes (gid : String) : JVal → Option (List LMarker)
  | .obj fields => loadMarkers gid fields
  | .null => none
  | .arr _ => some []
  | .num _ => some []

/-- Store markers obtained from loaded markers when every time is an actual
number (no NaN). -/
def lmToStore : List LMarker → Option (List Marker)
  | [] => some []
  | lm :: rest =>
    match lm.startMs, lm.endMs with
    | some s, some e =>
      (lmToStore rest).map (fun tail =>
        { id := lm.id, label := lm.label, startMs := s, endMs := e } :: tail)
    | _, _ => none

/-- Timeframes record built by handleSave: label mapped to start and end in
seconds (milliseconds divided by 1000), one entry per marker in store
order. -/
def saveTimeframes (ms : List Marker) : List (String × ℚ × ℚ) :=
  ms.map (fun m => (m.label, (m.startMs / 1000, m.endMs / 1000)))

/-- Well-formed persisted interval entry: an array whose first two elements
are numbers, or an object of exactly the shape with start and end, or
exactly the shape with from and to, all numeric. -/
def validEntry : JVal → Bool
  | .arr (.num _ :: .num _ :: _) => true
  | .obj [("start", .num _), ("end", .num _)] => true
  | .obj [("from", .num _), ("to", .num _)] => true
  | _ => false

/-- Interval denoted by a well-formed entry, in seconds (junk on other
values). -/
def entrySpec : JVal → ℚ × ℚ
  | .arr (.num s :: .num e :: _) => (s, e)
  | .obj [("start", .num s), ("end", .num e)] => (s, e)
  | .obj [("from", .num s), ("to", .num e)] => (s, e)
  | _ => (0, 0)

/-- Marker that loading must produce for a well-formed entry. -/
def specMarker (gid label : String) (tf : JVal) : LMarker :=
  { id := gid ++ "-" ++ label
    label := label
    startMs := some ((entrySpec tf).1 * 1000)
    endMs := some ((entrySpec tf).2 * 1000)
    groupId := gid }

/-- Dirty flag recomputed on every store change (the modification-tracking
effect): false when either the live set or the load-time snapshot is empty;
otherwise true when the lengths differ or some live marker has no snapshot
marker of the same id or differs from it in startMs or endMs. -/
def computeHasModifications (markers originalMarkers : List Marker) : Bool :=
  if originalMarkers.isEmpty || markers.isEmpty then false
  else
    decide (markers.length ≠ originalMarkers.length) ||
    markers.any (fun marker =>
      match originalMarkers.find? (fun m => m.id == marker.id) with
      | none => true
      | some original =>
        decide (original.startMs ≠ marker.startMs) ||
        decide (original.endMs ≠ marker.endMs))

/-- Display window of a track item in milliseconds (item.display.from and
item.display.to; fromMs and toMs here, since from is a reserved word). -/
structure DisplayWindow where
  fromMs : ℚ
  toMs : ℚ
deriving DecidableEq, Repr

/-- Track item of the editor scene; fields other than the display window do
not influence the slicer and are omitted. -/
structure TrackItem where
  display : DisplayWindow
deriving DecidableEq, Repr

/-- Track of the editor scene: an ordered list of item ids (other track
fields are copied unchanged by the slicer and are omitted). -/
structure Track where
  items : List String
deriving DecidableEq, Repr

/-- Editor scene as read by the START_MARKER_EXPORT subscriber:
trackItemsMap in entry order, the flat id list, and the tracks. -/
structure EditorState where
  trackItemsMap : List (String × TrackItem)
  trackItemIds : List String
  tracks : List Track
deriving DecidableEq, Repr

/-- Export marker payload (label, startMs, endMs). -/
structure ExportMarker where
  label : String
  startMs : ℚ
  endMs : ℚ
deriving DecidableEq, Repr

/-- Retention test of the slicer: the item overlaps the marker range. -/
def itemOverlaps (marker : ExportMarker) (it : TrackItem) : Bool :=
  decide (marker.startMs < it.display.toMs) && decide (it.display.fromMs < marker.endMs)

/-- Rewritten display window of a retained item, re-based to the marker
start and clipped to the marker duration. -/
def rebaseItem (marker : ExportMarker) (it : TrackItem) : TrackItem :=
  { it with display :=
      { fromMs := max 0 (it.display.fromMs - marker.startMs)
        toMs := min (marker.endMs - marker.startMs) (it.display.toMs - marker.startMs) } }

/-- Marker-scoped scene produced by the START_MARKER_EXPORT subscriber for
one marker: keep the overlapping items with re-based windows, and restrict
the id list and every track to the retained ids. -/
def sliceForMarker (st : EditorState) (marker : ExportMarker) : EditorState :=
  let adjusted := (st.trackItemsMap.filter (fun kv => itemOverlaps marker kv.2)).map
    (fun kv => (kv.1, rebaseItem marker kv.2))
  let keptIds := adjusted.map (·.1)
  { trackItemsMap := adjusted
    trackItemIds := keptIds
    tracks := st.tracks.map (fun tr => { tr with items := tr.items.filter (fun i => keptIds.contains i) }) }

/-- JavaScript Math.round for finite values: floor of the value plus one
half. -/
def jsRound (x : ℚ) : ℤ :=
  Int.floor (x + 1 / 2)

/-- Seek time of a drag update: the preview time quantized to the nearest
video frame, frame = round(t * fps / 1000) and time = frame / fps * 1000. -/
def roundToFrame (fps t : ℚ) : ℚ :=
  ((jsRound (t * fps / 1000) : ℚ) / fps) * 1000

/-- State touched by one drag gesture: the marker store, the player
position (the target of the last PLAYER_SEEK), the active drag session and
the playback time captured at gesture start (originalTimeRef). -/
structure GestureState where
  markers : List Marker
  playerTime : ℚ
  drag : Option (String × DragType)
  originalTime : Option ℚ
deriving DecidableEq, Repr

/-- Mouse-down handler: a miss on the marker id is a no-op; otherwise the
current playback time is captured and a drag session is opened (the pixel
bookkeeping startX, startLeft and startWidth is absorbed into the proposed
times fed to the moves). -/
def handleMouseDown (s : GestureState) (mid : String) (ty : DragType) : GestureState :=
  match s.markers.find? (fun m => m.id == mid) with
  | none => s
  | some _ => { s with drag := some (mid, ty), originalTime := some s.playerTime }

/-- Mouse-move handler for a proposed time p: with no active session it does
nothing; otherwise it applies the drag update to the store and, when a
preview time was produced, seeks the player to it quantized to the nearest
frame. -/
def handleMouseMove (fps : ℚ) (s : GestureState) (p : ℚ) : GestureState :=
  match s.drag with
  | none => s
  | some (mid, ty) =>
    { s with
        markers := dragUpdate s.markers mid ty p
        playerTime :=
          match dragPreview s.markers mid ty p with
          | some v => roundToFrame fps v
          | none => s.playerTime }

/-- Mouse-up handler: with an active session it destroys the session and
seeks the player back to the time captured at gesture start. -/
def handleMouseUp (s : GestureState) : GestureState :=
  match s.drag with
  | none => s
  | some _ =>
    { s with
        drag := none
        playerTime := s.originalTime.getD s.playerTime
        originalTime := none }

theorem jsFindIndex_eq_none {α : Type} {p : α → Bool} {l : List α} :
    jsFindIndex p l = none ↔ ∀ x ∈ l, p x = false := by
  induction l with
  | nil => simp [jsFindIndex]
  | cons x xs ih =>
    by_cases h : p x
    · simp [jsFindIndex, h]
    · simp [jsFindIndex, h, Option.map_eq_none', ih]

theorem jsFindIndex_eq_some {α : Type} {p : α → Bool} {l : List α} {i : ℕ}
    (h : jsFindIndex p l = some i) :
    ∃ x, l.get? i = some x ∧ p x = true ∧
      ∀ j, j < i → ∀ y, l.get? j = some y → p y = false := by
  induction l generalizing i with
  | nil => simp [jsFindIndex] at h
  | cons a xs ih =>
    by_cases hpa : p a
    · simp only [jsFindIndex, if_pos hpa] at h
      cases h
      exact ⟨a, rfl, hpa, by omega⟩
    · simp only [jsFindIndex, if_neg hpa, Option.map_eq_some'] at h
      obtain ⟨i', hi', rfl⟩ := h
      obtain ⟨x, hx, hpx, hmin⟩ := ih hi'
      refine ⟨x, by simpa using hx, hpx, ?_⟩
      intro j hj y hy
      cases j with
      | zero =>
        simp only [List.get?_cons_zero, Option.some.injEq] at hy
        subst hy
        simpa using hpa
      | succ j' =>
        exact hmin j' (by omega) y (by simpa using hy)

theorem jsFindIndex_isSome {α : Type} {p : α → Bool} {l : List α} {x : α}
    (hx : x ∈ l) (hp : p x = true) : ∃ i, jsFindIndex p l = some i := by
  cases heq : jsFindIndex p l with
  | none =>
    have := jsFindIndex_eq_none.mp heq x hx
    rw [hp] at this
    cases this
  | some i => exact ⟨i, rfl⟩

/-- Sorting key of the marker comparator. -/
def startLE (a b : Marker) : Prop := a.startMs ≤ b.startMs

theorem insertByStart_perm (x : Marker) (l : List Marker) :
    (insertByStart x l).Perm (x :: l) := by
  induction l with
  | nil => exact List.Perm.refl _
  | cons y ys ih =>
    unfold insertByStart
    by_cases h : y.startMs ≤ x.startMs
    · simp only [if_pos h]
      exact (ih.cons y).trans (List.Perm.swap x y ys)
    · simp only [if_neg h]
      exact List.Perm.refl _

theorem sortAux_perm (l : List Marker) :
    ∀ acc : List Marker, (l.foldl (fun a x => insertByStart x a) acc).Perm (l ++ acc) := by
  induction l with
  | nil => intro acc; simp
  | cons x xs ih =>
    intro acc
    simp only [List.foldl_cons]
    have h1 : (xs.foldl (fun a x => insertByStart x a) (insertByStart x acc)).Perm
        (xs ++ insertByStart x acc) := ih _
    have h2 : (xs ++ insertByStart x acc).Perm (xs ++ (x :: acc)) :=
      List.Perm.append_left xs (insertByStart_perm x acc)
    have h3 : (xs ++ (x :: acc)).Perm (x :: (xs ++ acc)) := List.perm_middle
    exact ((h1.trans h2).trans h3)

theorem sortByStart_perm (ms : List Marker) : (sortByStart ms).Perm ms := by
  have h := sortAux_perm ms []
  simpa [sortByStart] using h

theorem insertByStart_pairwise {x : Marker} {l : List Marker}
    (h : List.Pairwise startLE l) : List.Pairwise startLE (insertByStart x l) := by
  induction l with
  | nil => simp [insertByStart, startLE]
  | cons y ys ih =>
    rcases List.pairwise_cons.mp h with ⟨hy, hys⟩
    unfold insertByStart
    by_cases hle : y.startMs ≤ x.startMs
    · simp only [if_pos hle]
      refine List.pairwise_cons.mpr ⟨?_, ih hys⟩
      intro z hz
      have hz2 : z = x ∨ z ∈ ys := by
        have := (insertByStart_perm x ys).mem_iff.mp hz
        simpa using this
      rcases hz2 with rfl | hz2
      · exact hle
      · exact hy z hz2
    · simp only [if_neg hle]
      push_neg at hle
      refine List.pairwise_cons.mpr ⟨?_, h⟩
      intro z hz
      rcases List.mem_cons.mp hz with rfl | hz2
      · exact le_of_lt hle
      · exact le_trans (le_of_lt hle) (hy z hz2)

theorem sortAux_pairwise (l : List Marker) :
    ∀ acc : List Marker, List.Pairwise startLE acc →
      List.Pairwise startLE (l.foldl (fun a x => insertByStart x a) acc) := by
  induction l with
  | nil => intro acc hacc; simpa using hacc
  | cons x xs ih =>
    intro acc hacc
    simp only [List.foldl_cons]
    exact ih _ (insertByStart_pairwise hacc)

theorem sortByStart_sorted (ms : List Marker) :
    List.Pairwise startLE (sortByStart ms) :=
  sortAux_pairwise ms [] (List.Pairwise.nil)

/-- Specification of the previous-neighbor lookup relative to a marker m of
a well-formed store: the neighbor lies strictly left of m and dominates
every marker left of m. -/
def prevSpec (ms : List Marker) (m : Marker) : Option Marker → Prop
  | some pm => pm ∈ ms ∧ pm.startMs < m.startMs ∧ pm.endMs ≤ m.startMs ∧
      ∀ x ∈ ms, x.startMs < m.startMs → x.endMs ≤ pm.endMs
  | none => ∀ x ∈ ms, ¬ x.startMs < m.startMs

/-- Specification of the next-neighbor lookup relative to a marker m of a
well-formed store: the neighbor lies strictly right of m and precedes every
marker right of m. -/
def nextSpec (ms : List Marker) (m : Marker) : Option Marker → Prop
  | some nm => nm ∈ ms ∧ m.startMs < nm.startMs ∧ m.endMs ≤ nm.startMs ∧
      ∀ x ∈ ms, m.startMs < x.startMs → nm.startMs ≤ x.startMs
  | none => ∀ x ∈ ms, ¬ m.startMs < x.startMs

theorem dragNeighbors_spec {ms : List Marker} {m : Marker}
    (h : wfStore ms) (hm : m ∈ ms) :
    prevSpec ms m (dragNeighbors ms m.id).1 ∧ nextSpec ms m (dragNeighbors ms m.id).2 := by
  obtain ⟨hnodup, hmindur, hsep⟩ := h
  have hmsnd : ms.Nodup := List.Nodup.of_map _ hnodup
  have hinj : ∀ x ∈ ms, ∀ y ∈ ms, x.id = y.id → x = y := by
    intro x hx y hy hxy
    exact List.inj_on_of_nodup_map hnodup hx hy hxy
  have hperm : (sortByStart ms).Perm ms := sortByStart_perm ms
  have hSnd : (sortByStart ms).Nodup := hperm.nodup_iff.mpr hmsnd
  have hSmem : ∀ x : Marker, x ∈ sortByStart ms ↔ x ∈ ms := fun x => hperm.mem_iff
  have hsort := sortByStart_sorted ms
  have hget : ∀ (a b : Fin (sortByStart ms).length), a < b →
      ((sortByStart ms).get a).startMs ≤ ((sortByStart ms).get b).startMs := by
    intro a b hab
    exact List.pairwise_iff_get.mp hsort a b hab
  obtain ⟨i, hidx⟩ :=
    jsFindIndex_isSome (p := fun v => v.id == m.id) ((hSmem m).mpr hm) (by simp)
  obtain ⟨x0, hx0get, hx0p, hx0min⟩ := jsFindIndex_eq_some hidx
  have hx0id : x0.id = m.id := by simpa using hx0p
  have hx0mem : x0 ∈ ms := (hSmem x0).mp (List.get?_mem hx0get)
  have hx0 : x0 = m := hinj x0 hx0mem m hm hx0id
  rw [hx0] at hx0get
  have hi : i < (sortByStart ms).length := by
    rcases List.get?_eq_some.mp hx0get with ⟨hlt, _⟩
    exact hlt
  have hmi : (sortByStart ms).get ⟨i, hi⟩ = m := by
    rcases List.get?_eq_some.mp hx0get with ⟨hlt, hc⟩
    exact hc
  have hmemidx : ∀ x ∈ ms, ∃ n : Fin (sortByStart ms).length, (sortByStart ms).get n = x := by
    intro x hx
    exact List.mem_iff_get.mp ((hSmem x).mpr hx)
  have hdn : dragNeighbors ms m.id =
      (if i = 0 then none else (sortByStart ms).get? (i - 1), (sortByStart ms).get? (i + 1)) := by
    simp only [dragNeighbors, hidx]
  rw [hdn]
  constructor
  · -- previous neighbor
    by_cases hi0 : i = 0
    · simp only [if_pos hi0]
      intro x hx hlt
      obtain ⟨n, hn⟩ := hmemidx x hx
      rcases Nat.lt_trichotomy n.val i with hni | hni | hni
      · omega
      · have hfn : n = ⟨i, hi⟩ := Fin.ext hni
        rw [hfn, hmi] at hn
        rw [← hn] at hlt
        exact lt_irrefl _ hlt
      · have hle := hget ⟨i, hi⟩ n (by simpa [Fin.lt_def] using hni)
        rw [hmi, hn] at hle
        exact absurd hlt (not_lt.mpr hle)
    · simp only [if_neg hi0]
      have hi1 : i - 1 < (sortByStart ms).length := by omega
      rw [List.get?_eq_get hi1]
      have hpMmem : (sortByStart ms).get ⟨i - 1, hi1⟩ ∈ ms :=
        (hSmem _).mp (List.get_mem _ _ _)
      have hpMid : ((sortByStart ms).get ⟨i - 1, hi1⟩).id ≠ m.id := by
        have hq := hx0min (i - 1) (by omega) _ (List.get?_eq_get hi1)
        simpa using hq
      have hpMle : ((sortByStart ms).get ⟨i - 1, hi1⟩).startMs ≤ m.startMs := by
        have hq := hget ⟨i - 1, hi1⟩ ⟨i, hi⟩ (by simp only [Fin.lt_def]; omega)
        rwa [hmi] at hq
      have hpMsep : ((sortByStart ms).get ⟨i - 1, hi1⟩).startMs < m.startMs ∧
          ((sortByStart ms).get ⟨i - 1, hi1⟩).endMs ≤ m.startMs := by
        rcases hsep _ hpMmem m hm hpMid with h1 | h1
        · exact ⟨h1.1, h1.2⟩
        · exact absurd h1.1 (not_lt.mpr hpMle)
      refine ⟨hpMmem, hpMsep.1, hpMsep.2, ?_⟩
      intro x hx hlt
      obtain ⟨n, hn⟩ := hmemidx x hx
      rcases Nat.lt_trichotomy n.val i with hni | hni | hni
      · rcases Nat.lt_trichotomy n.val (i - 1) with hni1 | hni1 | hni1
        · have hle := hget n ⟨i - 1, hi1⟩ (by simpa [Fin.lt_def] using hni1)
          rw [hn] at hle
          by_cases hxeq : x = (sortByStart ms).get ⟨i - 1, hi1⟩
          · rw [hxeq]
          · have hxid : x.id ≠ ((sortByStart ms).get ⟨i - 1, hi1⟩).id := by
              intro hcon
              exact hxeq (hinj x hx _ hpMmem hcon)
            rcases hsep x hx _ hpMmem hxid with h1 | h1
            · have hpp := hmindur _ hpMmem
              linarith [h1.2]
            · exact absurd h1.1 (not_lt.mpr hle)
        · have hfn : n = ⟨i - 1, hi1⟩ := Fin.ext hni1
          rw [hfn] at hn
          rw [← hn]
        · omega
      · have hfn : n = ⟨i, hi⟩ := Fin.ext hni
        rw [hfn, hmi] at hn
        rw [← hn] at hlt
        exact absurd hlt (lt_irrefl _)
      · have hle := hget ⟨i, hi⟩ n (by simpa [Fin.lt_def] using hni)
        rw [hmi, hn] at hle
        exact absurd hlt (not_lt.mpr hle)
  · -- next neighbor
    by_cases hi1 : i + 1 < (sortByStart ms).length
    · rw [List.get?_eq_get hi1]
      have hnMmem : (sortByStart ms).get ⟨i + 1, hi1⟩ ∈ ms :=
        (hSmem _).mp (List.get_mem _ _ _)
      have hnMid : ((sortByStart ms).get ⟨i + 1, hi1⟩).id ≠ m.id := by
        intro hcon
        have heq : (sortByStart ms).get ⟨i + 1, hi1⟩ = m := hinj _ hnMmem m hm hcon
        have hgeteq : (sortByStart ms).get ⟨i + 1, hi1⟩ = (sortByStart ms).get ⟨i, hi⟩ := by
          rw [heq, hmi]
        have hfin : (⟨i + 1, hi1⟩ : Fin (sortByStart ms).length) = ⟨i, hi⟩ :=
          (hSnd.get_inj_iff).mp hgeteq
        have hval : i + 1 = i := congrArg Fin.val hfin
        omega
      have hnMge : m.startMs ≤ ((sortByStart ms).get ⟨i + 1, hi1⟩).startMs := by
        have hq := hget ⟨i, hi⟩ ⟨i + 1, hi1⟩ (by simp [Fin.lt_def])
        rwa [hmi] at hq
      have hnMsep : m.startMs < ((sortByStart ms).get ⟨i + 1, hi1⟩).startMs ∧
          m.endMs ≤ ((sortByStart ms).get ⟨i + 1, hi1⟩).startMs := by
        rcases hsep _ hnMmem m hm hnMid with h1 | h1
        · exact absurd h1.1 (not_lt.mpr hnMge)
        · exact ⟨h1.1, h1.2⟩
      refine ⟨hnMmem, hnMsep.1, hnMsep.2, ?_⟩
      intro x hx hlt
      obtain ⟨n, hn⟩ := hmemidx x hx
      rcases Nat.lt_trichotomy n.val i with hni | hni | hni
      · have hle := hget n ⟨i, hi⟩ (by simpa [Fin.lt_def] using hni)
        rw [hmi, hn] at hle
        exact absurd hlt (not_lt.mpr hle)
      · have hfn : n = ⟨i, hi⟩ := Fin.ext hni
        rw [hfn, hmi] at hn
        rw [← hn] at hlt
        exact absurd hlt (lt_irrefl _)
      · rcases Nat.lt_trichotomy n.val (i + 1) with hni1 | hni1 | hni1
        · omega
        · have hfn : n = ⟨i + 1, hi1⟩ := Fin.ext hni1
          rw [hfn] at hn
          rw [← hn]
        · have hle := hget ⟨i + 1, hi1⟩ n (by simpa [Fin.lt_def] using hni1)
          rw [hn] at hle
          exact hle
    · have hnone : (sortByStart ms).get? (i + 1) = none := List.get?_eq_none.mpr (by omega)
      rw [hnone]
      intro x hx hlt
      obtain ⟨n, hn⟩ := hmemidx x hx
      rcases Nat.lt_trichotomy n.val i with hni | hni | hni
      · have hle := hget n ⟨i, hi⟩ (by simpa [Fin.lt_def] using hni)
        rw [hmi, hn] at hle
        exact absurd hlt (not_lt.mpr hle)
      · have hfn : n = ⟨i, hi⟩ := Fin.ext hni
        rw [hfn, hmi] at hn
        rw [← hn] at hlt
        exact absurd hlt (lt_irrefl _)
      · omega

theorem updOne_id (prevM nextM : Option Marker) (ty : DragType) (p : ℚ) (m : Marker) :
    (updOne prevM nextM ty p m).id = m.id := by
  cases ty <;> rfl

theorem map_id_on {α : Type} (l : List α) (f : α → α) (h : ∀ x ∈ l, f x = x) :
    l.map f = l := by
  induction l with
  | nil => rfl
  | cons a as ih =>
    simp only [List.map_cons]
    rw [h a (by simp), ih (fun x hx => h x (by simp [hx]))]

theorem map_congr_on {α β : Type} (l : List α) (f g : α → β) (h : ∀ x ∈ l, f x = g x) :
    l.map f = l.map g := by
  induction l with
  | nil => rfl
  | cons a as ih =>
    simp only [List.map_cons]
    rw [h a (by simp), ih (fun x hx => h x (by simp [hx]))]

theorem wfStore_dragUpdate {ms : List Marker} (h : wfStore ms)
    (mid : String) (ty : DragType) (p : ℚ) : wfStore (dragUpdate ms mid ty p) := by
  by_cases hex : ∃ m ∈ ms, m.id = mid
  case neg =>
    have heq : dragUpdate ms mid ty p = ms := by
      apply map_id_on
      intro x hx
      have : x.id ≠ mid := fun hc => hex ⟨x, hx, hc⟩
      simp [this]
    rw [heq]
    exact h
  case pos =>
    obtain ⟨m, hm, rfl⟩ := hex
    obtain ⟨hnodup, hmindur, hsep⟩ := h
    have hinj : ∀ x ∈ ms, ∀ y ∈ ms, x.id = y.id → x = y := by
      intro x hx y hy hxy
      exact List.inj_on_of_nodup_map hnodup hx hy hxy
    obtain ⟨hprev, hnext⟩ := dragNeighbors_spec ⟨hnodup, hmindur, hsep⟩ hm
    set pn := dragNeighbors ms m.id with hpn
    set mu := updOne pn.1 pn.2 ty p m with hmu
    have hmdur : m.startMs + 100 ≤ m.endMs := hmindur m hm
    -- core bounds of the updated marker
    have hb1 : mu.startMs + 100 ≤ mu.endMs := by
      cases ty with
      | move =>
        simp only [hmu, updOne]
        have : (100 : ℚ) ≤ m.endMs - m.startMs := by linarith
        linarith [this]
      | resizeLeft =>
        simp only [hmu, updOne]
        have : clampLeft pn.1 p m.endMs ≤ m.endMs - 100 := by
          unfold clampLeft
          exact min_le_right _ _
        linarith [this]
      | resizeRight =>
        simp only [hmu, updOne]
        have : m.startMs + 100 ≤ clampRight pn.2 p m.startMs := by
          unfold clampRight
          cases hq : pn.2 with
          | none => exact le_max_left _ _
          | some nm =>
            rw [hq] at hnext
            obtain ⟨_, _, hnmLe, _⟩ := hnext
            exact le_min (le_max_left _ _) (by linarith)
        linarith [this]
    have hb2 : ∀ x ∈ ms, x.startMs < m.startMs → x.endMs ≤ mu.startMs := by
      intro x hx hlt
      cases hq : pn.1 with
      | none =>
        rw [hq] at hprev
        exact absurd hlt (hprev x hx)
      | some pm =>
        rw [hq] at hprev
        obtain ⟨hpmMem, hpmLt, hpmLe, hpmAll⟩ := hprev
        have hxpm : x.endMs ≤ pm.endMs := hpmAll x hx hlt
        have hpmMu : pm.endMs ≤ mu.startMs := by
          cases ty with
          | move =>
            simp only [hmu, updOne]
            unfold clampMove
            rw [hq]
            cases hq2 : pn.2 with
            | none => exact le_max_right _ _
            | some nm =>
              rw [hq2] at hnext
              obtain ⟨_, _, hnmLe, _⟩ := hnext
              exact le_min (le_max_right _ _) (by linarith)
          | resizeLeft =>
            simp only [hmu, updOne]
            unfold clampLeft
            rw [hq]
            exact le_min (le_max_right _ _) (by linarith)
          | resizeRight =>
            simp only [hmu, updOne]
            linarith
        linarith
    have hb3 : ∀ x ∈ ms, m.startMs < x.startMs → mu.endMs ≤ x.startMs := by
      intro x hx hlt
      cases hq : pn.2 with
      | none =>
        rw [hq] at hnext
        exact absurd hlt (hnext x hx)
      | some nm =>
        rw [hq] at hnext
        obtain ⟨hnmMem, hnmLt, hnmLe, hnmAll⟩ := hnext
        have hnmX : nm.startMs ≤ x.startMs := hnmAll x hx hlt
        have hmuNm : mu.endMs ≤ nm.startMs := by
          cases ty with
          | move =>
            simp only [hmu, updOne]
            unfold clampMove
            rw [hq]
            cases hq1 : pn.1 with
            | none =>
              simp only [hq1]
              have hmin := min_le_right (max 0 p) (nm.startMs - (m.endMs - m.startMs))
              linarith
            | some pm =>
              simp only [hq1]
              have hmin := min_le_right (max (max 0 p) pm.endMs)
                (nm.startMs - (m.endMs - m.startMs))
              linarith
          | resizeLeft =>
            simp only [hmu, updOne]
            linarith
          | resizeRight =>
            simp only [hmu, updOne]
            unfold clampRight
            rw [hq]
            exact min_le_right _ _
        linarith
    have hmuid : mu.id = m.id := updOne_id _ _ _ _ _
    -- membership shape of the updated list
    have hfshape : ∀ a ∈ ms,
        (if a.id = m.id then updOne pn.1 pn.2 ty p a else a) = (if a.id = m.id then mu else a) := by
      intro a ha
      by_cases hc : a.id = m.id
      · have : a = m := hinj a ha m hm hc
        rw [this]
      · simp [hc]
    have hupd : dragUpdate ms m.id ty p = ms.map (fun a => if a.id = m.id then mu else a) := by
      simp only [dragUpdate]
      exact map_congr_on _ _ _ hfshape
    rw [hupd]
    refine ⟨?_, ?_, ?_⟩
    · -- ids unchanged, hence still nodup
      have hids : (ms.map (fun a => if a.id = m.id then mu else a)).map Marker.id =
          ms.map Marker.id := by
        rw [List.map_map]
        apply map_congr_on
        intro a ha
        by_cases hc : a.id = m.id
        · simp [hc, hmuid]
        · simp [hc]
      rw [hids]
      exact hnodup
    · -- minimum duration
      intro y hy
      obtain ⟨a, ha, hfa⟩ := List.mem_map.mp hy
      by_cases hc : a.id = m.id
      · rw [if_pos hc] at hfa
        rw [← hfa]
        exact hb1
      · rw [if_neg hc] at hfa
        rw [← hfa]
        exact hmindur a ha
    · -- separation
      intro y1 hy1 y2 hy2 hid
      obtain ⟨a1, ha1, hfa1⟩ := List.mem_map.mp hy1
      obtain ⟨a2, ha2, hfa2⟩ := List.mem_map.mp hy2
      by_cases hc1 : a1.id = m.id
      · have ha1m : a1 = m := hinj a1 ha1 m hm hc1
        rw [if_pos hc1] at hfa1
        by_cases hc2 : a2.id = m.id
        · exfalso
          rw [if_pos hc2] at hfa2
          rw [← hfa1, ← hfa2] at hid
          exact hid rfl
        · rw [if_neg hc2] at hfa2
          have ha2id : a2.id ≠ m.id := hc2
          rcases hsep a2 ha2 m hm ha2id with hcase | hcase
          · -- a2 left of m
            have he := hb2 a2 ha2 hcase.1
            have hd := hmindur a2 ha2
            right
            rw [← hfa1, ← hfa2]
            constructor
            · linarith
            · exact he
          · -- a2 right of m
            have he := hb3 a2 ha2 hcase.1
            left
            rw [← hfa1, ← hfa2]
            constructor
            · linarith
            · exact he
      · rw [if_neg hc1] at hfa1
        by_cases hc2 : a2.id = m.id
        · have ha2m : a2 = m := hinj a2 ha2 m hm hc2
          rw [if_pos hc2] at hfa2
          rcases hsep a1 ha1 m hm hc1 with hcase | hcase
          · have he := hb2 a1 ha1 hcase.1
            have hd := hmindur a1 ha1
            left
            rw [← hfa1, ← hfa2]
            constructor
            · linarith
            · exact he
          · have he := hb3 a1 ha1 hcase.1
            right
            rw [← hfa1, ← hfa2]
            constructor
            · linarith
            · exact he
        · rw [if_neg hc2] at hfa2
          rw [← hfa1, ← hfa2] at hid ⊢
          exact hsep a1 ha1 a2 ha2 hid

theorem wfStore_deleteMarkers {ms : List Marker} (h : wfStore ms) (ids : List String) :
    wfStore (deleteMarkers ms ids) := by
  obtain ⟨hnodup, hmindur, hsep⟩ := h
  refine ⟨?_, ?_, ?_⟩
  · exact List.Nodup.sublist (List.Sublist.map _ (List.filter_sublist ms)) hnodup
  · intro m hm
    exact hmindur m (List.mem_filter.mp hm).1
  · intro m1 h1 m2 h2 hid
    exact hsep m1 (List.mem_filter.mp h1).1 m2 (List.mem_filter.mp h2).1 hid

theorem wfStore_applyOp {ms : List Marker} (h : wfStore ms) (op : StoreOp) :
    wfStore (applyOp ms op) := by
  cases op with
  | drag mid ty p => exact wfStore_dragUpdate h mid ty p
  | deleteSel ids => exact wfStore_deleteMarkers h ids

theorem wfStore_applyOps {ms : List Marker} (h : wfStore ms) (ops : List StoreOp) :
    wfStore (applyOps ms ops) := by
  induction ops generalizing ms with
  | nil => exact h
  | cons op rest ih =>
    simp only [applyOps, List.foldl_cons]
    exact ih (wfStore_applyOp h op)

theorem wfStore_applyDrags {ms : List Marker} (h : wfStore ms)
    (ops : List (String × DragType × ℚ)) : wfStore (applyDrags ms ops) := by
  induction ops generalizing ms with
  | nil => exact h
  | cons op rest ih =>
    simp only [applyDrags, List.foldl_cons]
    exact ih (wfStore_dragUpdate h op.1 op.2.1 op.2.2)

theorem wfStore_nonOverlap {ms : List Marker} (h : wfStore ms) : pairwiseNonOverlap ms := by
  obtain ⟨hnodup, hmindur, hsep⟩ := h
  intro m1 h1 m2 h2 hlt
  by_cases hid : m1.id = m2.id
  · have heq : m1 = m2 := List.inj_on_of_nodup_map hnodup h1 h2 hid
    rw [heq] at hlt
    exact absurd hlt (lt_irrefl _)
  · rcases hsep m1 h1 m2 h2 hid with hc | hc
    · exact hc.2
    · exact absurd hlt (not_lt.mpr (le_of_lt hc.1))

/-- Store with a sub-minimum-duration marker, reachable by loading the
persisted group with intervals 0-1 s and 1-1.05 s. -/
def ceStoreA : List Marker := [⟨"p", "p", 0, 1000⟩, ⟨"m", "m", 1000, 1050⟩]

/-- Store with two markers of equal startMs (vacuously non-overlapping). -/
def ceStoreB : List Marker := [⟨"B", "B", 0, 300⟩, ⟨"A", "A", 0, 200⟩]

/-- Store with two markers sharing an id. -/
def ceStoreC : List Marker := [⟨"x", "x", 0, 200⟩, ⟨"x", "x2", 1000, 1100⟩]

/-- Claim C1 as stated is false: a store whose markers pairwise satisfy the
non-overlap property can violate it after one drag update.  A resize-left
on a marker shorter than 100 ms is forced below the previous marker's end
by the endMs - 100 clamp; with equal start times the sorted-neighbor clamp
compares against the wrong marker; and with duplicated ids both copies are
updated against one copy's neighbors.  Each conjunct shows the non-overlap
precondition (where relevant together with minimum durations) before the
update and its failure after. -/
theorem c1_counterexample :
    (pairwiseNonOverlap ceStoreA ∧
      ¬ pairwiseNonOverlap (dragUpdate ceStoreA "m" .resizeLeft 900)) ∧
    (pairwiseNonOverlap ceStoreB ∧ minDurOK ceStoreB ∧
      ¬ pairwiseNonOverlap (dragUpdate ceStoreB "A" .resizeLeft 0)) ∧
    (pairwiseNonOverlap ceStoreC ∧ minDurOK ceStoreC ∧
      ¬ pairwiseNonOverlap (dragUpdate ceStoreC "x" .move 900)) := by
  refine ⟨⟨by decide, ?_⟩, ⟨by decide, ?_, ?_⟩, ⟨by decide, ?_, ?_⟩⟩ <;>
    norm_num +decide [pairwiseNonOverlap, minDurOK, dragUpdate, dragNeighbors, sortByStart,
      insertByStart, jsFindIndex, updOne, clampLeft, clampMove, ceStoreA, ceStoreB, ceStoreC]

/-- Claim C1 (amended): on a well-formed store - distinct marker ids,
every marker at least 100 ms long, and markers with different ids strictly
separated - every sequence of move, resize-left and resize-right updates
applied by the drag engine preserves the non-overlap invariant: in the
resulting store, any marker starting strictly before another also ends by
that marker's start.  This holds after every prefix of the sequence, hence
continuously during a drag, not only at rest. -/
theorem c1_nonOverlap_preserved (ms : List Marker) (h : wfStore ms)
    (ops : List (String × DragType × ℚ)) :
    pairwiseNonOverlap (applyDrags ms ops) :=
  wfStore_nonOverlap (wfStore_applyDrags h ops)

/-- Scenario store of property Scenario A: markers A 0-2000 and B 3000-5000. -/
def scenarioA : List Marker := [⟨"A", "A", 0, 2000⟩, ⟨"B", "B", 3000, 5000⟩]

/-- Witness for c1_nonOverlap_preserved at the Scenario A store and a
two-update drag sequence. -/
theorem c1_nonOverlap_preserved_witness :
    wfStore scenarioA ∧
      pairwiseNonOverlap (applyDrags scenarioA
        [("A", .resizeRight, 4000), ("B", .move, 100)]) :=
  ⟨by norm_num +decide [wfStore, minDurOK, separated, scenarioA],
    c1_nonOverlap_preserved scenarioA
      (by norm_num +decide [wfStore, minDurOK, separated, scenarioA])
      [("A", .resizeRight, 4000), ("B", .move, 100)]⟩

/-- Claim C2 as stated is false: loading a persisted group performs no
minimum-duration clamping, so the LOAD_SELECTION_GROUP subscriber converts
the interval start 0 s, end 0.05 s into a marker whose duration 50 ms is
below the 100 ms floor. -/
theorem c2_counterexample :
    loadTimeframes "g" (.obj [("a", .obj [("start", .num 0), ("end", .num (1/20))])]) =
      some [⟨"g-a", "a", some 0, some 50, "g"⟩] ∧ (50 : ℚ) - 0 < 100 := by
  constructor
  · norm_num +decide [loadTimeframes, loadMarkers, entryRawStart, entryRawEnd, pickField,
      getField, truthy, toNumber, Bind.bind, Except.bind, pure, Except.pure]
  · norm_num

/-- Claim C2 (amended): drag updates and deletions preserve the 100 ms
minimum duration on a well-formed store, so no marker reachable from such
a store by drags and deletes is ever shorter than 100 ms; loading a
persisted group, however, does not enforce the floor and can itself
produce markers with endMs - startMs below 100. -/
theorem c2_minDuration_preserved (ms : List Marker) (h : wfStore ms)
    (ops : List StoreOp) :
    ∀ m ∈ applyOps ms ops, ¬ (m.endMs - m.startMs < 100) := by
  intro m hm
  have := (wfStore_applyOps h ops).2.1 m hm
  linarith

/-- Witness for c2_minDuration_preserved at the Scenario A store with a
drag followed by a deletion. -/
theorem c2_minDuration_preserved_witness :
    wfStore scenarioA ∧
      ∀ m ∈ applyOps scenarioA [.drag "A" .resizeRight 4000, .deleteSel ["B"]],
        ¬ (m.endMs - m.startMs < 100) :=
  ⟨by norm_num +decide [wfStore, minDurOK, separated, scenarioA],
    c2_minDuration_preserved scenarioA
      (by norm_num +decide [wfStore, minDurOK, separated, scenarioA])
      [.drag "A" .resizeRight 4000, .deleteSel ["B"]]⟩

theorem find?_congr_on {α : Type} (l : List α) (p q : α → Bool)
    (h : ∀ x ∈ l, p x = q x) : l.find? p = l.find? q := by
  induction l with
  | nil => rfl
  | cons a as ih =>
    have ha := h a (by simp)
    by_cases hp : p a = true
    · rw [List.find?_cons_of_pos _ hp, List.find?_cons_of_pos _ (ha ▸ hp)]
    · rw [List.find?_cons_of_neg _ (by simpa using hp),
        List.find?_cons_of_neg _ (by rw [← ha]; simpa using hp)]
      exact ih (fun x hx => h x (by simp [hx]))

theorem find?_by_id {ms : List Marker} {m : Marker} (hm : m ∈ ms)
    (huniq : ∀ x ∈ ms, x.id = m.id → x = m) :
    ms.find? (fun v => v.id == m.id) = some m := by
  induction ms with
  | nil => cases hm
  | cons a as ih =>
    by_cases ha : a.id = m.id
    · have haa : a = m := huniq a (by simp) ha
      rw [List.find?_cons_of_pos _ (by simp [ha]), haa]
    · rw [List.find?_cons_of_neg _ (by simp [ha])]
      have hmas : m ∈ as := by
        rcases List.mem_cons.mp hm with rfl | hmem
        · exact absurd rfl ha
        · exact hmem
      exact ih hmas (fun x hx => huniq x (by simp [hx]))

theorem dragUpdate_find {ms : List Marker} {m : Marker}
    (hnd : (ms.map Marker.id).Nodup) (hm : m ∈ ms) (ty : DragType) (p : ℚ) :
    (dragUpdate ms m.id ty p).find? (fun v => v.id == m.id) =
      some (updOne (dragNeighbors ms m.id).1 (dragNeighbors ms m.id).2 ty p m) := by
  have huniq : ∀ x ∈ ms, x.id = m.id → x = m := fun x hx hxid =>
    List.inj_on_of_nodup_map hnd hx hm hxid
  simp only [dragUpdate]
  rw [List.find?_map]
  rw [find?_congr_on ms _ (fun v => v.id == m.id) ?_]
  · rw [find?_by_id hm huniq]
    simp
  · intro a ha
    by_cases hc : a.id = m.id
    · simp [Function.comp, hc, updOne_id]
    · simp [Function.comp, hc]

/-- Claim C5: a resize-right drag on a marker of a well-formed store sets
its end to the proposed end clamped between startMs + 100 and the start of
its right neighbor in startMs order (the member starting after the marker
and before every other such member), and leaves the end unbounded above
when every other marker starts before it. -/
theorem c5_resizeRight_end (ms : List Marker) (m : Marker) (p : ℚ)
    (h : wfStore ms) (hm : m ∈ ms) :
    (∀ n ∈ ms, m.startMs < n.startMs →
      (∀ x ∈ ms, m.startMs < x.startMs → n.startMs ≤ x.startMs) →
      (dragUpdate ms m.id .resizeRight p).find? (fun v => v.id == m.id) =
        some { m with endMs := min (max (m.startMs + 100) p) n.startMs }) ∧
    ((∀ x ∈ ms, x.id ≠ m.id → x.startMs < m.startMs) →
      (dragUpdate ms m.id .resizeRight p).find? (fun v => v.id == m.id) =
        some { m with endMs := max (m.startMs + 100) p }) := by
  obtain ⟨-, hnext⟩ := dragNeighbors_spec h hm
  have hfind := dragUpdate_find h.1 hm .resizeRight p
  constructor
  · intro n hn hlt hminl
    cases hq : (dragNeighbors ms m.id).2 with
    | none =>
      rw [hq] at hnext
      exact absurd hlt (hnext n hn)
    | some nm =>
      rw [hq] at hnext
      obtain ⟨hnmMem, hnmLt, hnmLe, hnmAll⟩ := hnext
      have h1 : nm.startMs ≤ n.startMs := hnmAll n hn hlt
      have h2 : n.startMs ≤ nm.startMs := hminl nm hnmMem hnmLt
      have heq : nm = n := by
        by_cases hc : nm = n
        · exact hc
        · exfalso
          have hid : nm.id ≠ n.id := fun hcon =>
            hc (List.inj_on_of_nodup_map h.1 hnmMem hn hcon)
          rcases h.2.2 nm hnmMem n hn hid with hcase | hcase
          · linarith [hcase.1]
          · linarith [hcase.1]
      rw [hfind, hq, heq]
      simp [updOne, clampRight]
  · intro hall
    cases hq : (dragNeighbors ms m.id).2 with
    | some nm =>
      rw [hq] at hnext
      obtain ⟨hnmMem, hnmLt, -, -⟩ := hnext
      have hnmid : nm.id ≠ m.id := by
        intro hcon
        have heq : nm = m := List.inj_on_of_nodup_map h.1 hnmMem hm hcon
        rw [heq] at hnmLt
        exact lt_irrefl _ hnmLt
      exact absurd hnmLt (not_lt.mpr (le_of_lt (hall nm hnmMem hnmid)))
    | none =>
      rw [hfind, hq]
      simp [updOne, clampRight]

/-- Witness for c5_resizeRight_end: Scenario A, markers A 0-2000 and
B 3000-5000; resize-right on A proposing end 4000 clamps the end to 3000. -/
theorem c5_resizeRight_end_witness :
    (dragUpdate scenarioA "A" .resizeRight 4000).find? (fun v => v.id == "A") =
      some ⟨"A", "A", 0, 3000⟩ := by
  have hwf : wfStore scenarioA := by
    norm_num +decide [wfStore, minDurOK, separated, scenarioA]
  have hmem : (⟨"A", "A", 0, 2000⟩ : Marker) ∈ scenarioA := by simp [scenarioA]
  have hc := (c5_resizeRight_end scenarioA ⟨"A", "A", 0, 2000⟩ 4000 hwf hmem).1
    ⟨"B", "B", 3000, 5000⟩ (by simp [scenarioA]) (by norm_num)
    (by
      intro x hx hlt
      simp only [scenarioA, List.mem_cons, List.not_mem_nil, or_false] at hx
      rcases hx with rfl | rfl
      · norm_num at hlt
      · norm_num)
  norm_num [min_def, max_def] at hc
  exact hc

/-- Selected markers of Scenario C: intervals 2000-4000 and 5000-6000. -/
def scenarioC : List Marker := [⟨"m1", "m1", 2000, 4000⟩, ⟨"m2", "m2", 5000, 6000⟩]

/-- Claim C6: over the selected markers sorted by startMs, sequential play
starts at the first marker whose closed interval contains the current time;
when none contains it, at the first marker starting strictly after it; and
when no such marker exists either, at index 0.  In Scenario C (markers
2000-4000 and 5000-6000, current time 4500) the session starts at the
second marker and seeks to 5000. -/
theorem c6_seqStartIndex (sorted : List Marker) (t : ℚ) :
    ((∃ m ∈ sorted, markerContains m t = true) →
      ∃ m, sorted.get? (seqStartIndex sorted t) = some m ∧ markerContains m t = true ∧
        ∀ j, j < seqStartIndex sorted t → ∀ y, sorted.get? j = some y →
          markerContains y t = false) ∧
    ((∀ m ∈ sorted, markerContains m t = false) → (∃ m ∈ sorted, t < m.startMs) →
      ∃ m, sorted.get? (seqStartIndex sorted t) = some m ∧ t < m.startMs ∧
        ∀ j, j < seqStartIndex sorted t → ∀ y, sorted.get? j = some y → ¬ t < y.startMs) ∧
    ((∀ m ∈ sorted, markerContains m t = false) → (∀ m ∈ sorted, ¬ t < m.startMs) →
      seqStartIndex sorted t = 0) ∧
    handleSequentialPlay scenarioC ["m1", "m2"] 4500 = some (1, 5000) := by
  refine ⟨?_, ?_, ?_, by decide⟩
  · intro hex
    obtain ⟨m0, hm0, hp0⟩ := hex
    obtain ⟨i, hidx⟩ := jsFindIndex_isSome (p := fun m => markerContains m t) hm0 hp0
    obtain ⟨x, hx, hpx, hmin⟩ := jsFindIndex_eq_some hidx
    refine ⟨x, ?_, hpx, ?_⟩
    · simp only [seqStartIndex, hidx]
      exact hx
    · intro j hj y hy
      simp only [seqStartIndex, hidx] at hj
      exact hmin j hj y hy
  · intro hnone hex
    have h1 : jsFindIndex (fun m => markerContains m t) sorted = none :=
      jsFindIndex_eq_none.mpr hnone
    obtain ⟨m0, hm0, hlt0⟩ := hex
    obtain ⟨i, hidx⟩ :=
      jsFindIndex_isSome (p := fun m => decide (t < m.startMs)) hm0 (by simpa using hlt0)
    obtain ⟨x, hx, hpx, hmin⟩ := jsFindIndex_eq_some hidx
    refine ⟨x, ?_, by simpa using hpx, ?_⟩
    · simp only [seqStartIndex, h1, hidx]
      exact hx
    · intro j hj y hy
      simp only [seqStartIndex, h1, hidx] at hj
      have := hmin j hj y hy
      simpa using this
  · intro hnone hnlt
    have h1 : jsFindIndex (fun m => markerContains m t) sorted = none :=
      jsFindIndex_eq_none.mpr hnone
    have h2 : jsFindIndex (fun m => decide (t < m.startMs)) sorted = none :=
      jsFindIndex_eq_none.mpr (fun x hx => by simpa using hnlt x hx)
    simp [seqStartIndex, h1, h2]

/-- Witness for c6_seqStartIndex: in Scenario C no selected marker contains
time 4500, and the computed start index points at a marker starting after
4500 (the second marker). -/
theorem c6_seqStartIndex_witness :
    ∃ m, (sortByStart scenarioC).get? (seqStartIndex (sortByStart scenarioC) 4500) = some m ∧
      4500 < m.startMs := by
  have h := (c6_seqStartIndex (sortByStart scenarioC) 4500).2.1
    (by decide) (by decide)
  obtain ⟨m, h1, h2, -⟩ := h
  exact ⟨m, h1, h2⟩

theorem assoc_slice_find {α : Type} {l : List (String × α)} {k : String} {it : α}
    (hnd : (l.map Prod.fst).Nodup) (hmem : (k, it) ∈ l)
    (q : α → Bool) (r : α → α) :
    ((l.filter (fun kv => q kv.2)).map (fun kv => (kv.1, r kv.2))).find?
        (fun kv => kv.1 == k) =
      if q it then some (k, r it) else none := by
  induction l with
  | nil => cases hmem
  | cons a as ih =>
    have hnd2 : (as.map Prod.fst).Nodup := (List.nodup_cons.mp hnd).2
    have hhead : a.1 ∉ as.map Prod.fst := by
      simpa using (List.nodup_cons.mp hnd).1
    rcases List.mem_cons.mp hmem with heq | hmem2
    · subst heq
      simp only [List.filter_cons]
      by_cases hq : q it = true
      · rw [if_pos hq, if_pos hq, List.map_cons]
        rw [List.find?_cons_of_pos _ (by simp)]
      · rw [if_neg hq, if_neg hq]
        apply List.find?_eq_none.mpr
        intro x hx
        obtain ⟨kv, hkv, hkvx⟩ := List.mem_map.mp hx
        have hk1 : kv.1 ∈ as.map Prod.fst :=
          List.mem_map.mpr ⟨kv, (List.mem_filter.mp hkv).1, rfl⟩
        have : kv.1 ≠ k := by
          intro hcon
          rw [hcon] at hk1
          exact hhead hk1
        rw [← hkvx]
        simpa using this
    · have hka : a.1 ≠ k := by
        intro hcon
        apply hhead
        rw [hcon]
        exact List.mem_map.mpr ⟨(k, it), hmem2, rfl⟩
      simp only [List.filter_cons]
      by_cases hq : q a.2
      · simp only [hq, if_pos, List.map_cons]
        rw [List.find?_cons_of_neg _ (by simpa using hka)]
        exact ih hnd2 hmem2
      · simp only [hq, Bool.false_eq_true, if_false]
        exact ih hnd2 hmem2

/-- Scene of Scenario D: one item with display window 1000-6000 on one
track. -/
def scenarioD : EditorState := ⟨[("i1", ⟨⟨1000, 6000⟩⟩)], ["i1"], [⟨["i1"]⟩]⟩

/-- Claim C7: for every scene with distinct item ids and every marker, the
marker-scoped slice retains an item exactly when the item's window overlaps
the marker (to past the marker start and from before the marker end); a
retained item's window is rewritten to max 0 (from - startMs) and
min (endMs - startMs) (to - startMs); every track keeps exactly its
retained ids; and the Scenario D item 1000-6000 sliced by marker 3000-5000
becomes the window 0-2000. -/
theorem c7_slicer (st : EditorState) (marker : ExportMarker)
    (hnd : (st.trackItemsMap.map Prod.fst).Nodup) :
    (∀ k it, (k, it) ∈ st.trackItemsMap →
      (sliceForMarker st marker).trackItemsMap.find? (fun kv => kv.1 == k) =
        (if marker.startMs < it.display.toMs ∧ it.display.fromMs < marker.endMs then
          some (k, ⟨⟨max 0 (it.display.fromMs - marker.startMs),
            min (marker.endMs - marker.startMs) (it.display.toMs - marker.startMs)⟩⟩)
        else none)) ∧
    (sliceForMarker st marker).tracks = st.tracks.map (fun tr =>
      { items := tr.items.filter (fun i =>
          ((sliceForMarker st marker).trackItemsMap.map Prod.fst).contains i) }) ∧
    sliceForMarker scenarioD ⟨"M", 3000, 5000⟩ =
      ⟨[("i1", ⟨⟨0, 2000⟩⟩)], ["i1"], [⟨["i1"]⟩]⟩ := by
  refine ⟨?_, ?_, ?_⟩
  · intro k it hmem
    have h := assoc_slice_find hnd hmem (itemOverlaps marker) (rebaseItem marker)
    by_cases hov : marker.startMs < it.display.toMs ∧ it.display.fromMs < marker.endMs
    · have hb : itemOverlaps marker it = true := by
        simp [itemOverlaps, hov.1, hov.2]
      simp only [sliceForMarker]
      rw [h, if_pos hb, if_pos hov]
      rfl
    · have hb : itemOverlaps marker it = false := by
        simp only [itemOverlaps, Bool.and_eq_false_iff, decide_eq_false_iff_not]
        rcases not_and_or.mp hov with hc | hc
        · exact Or.inl hc
        · exact Or.inr hc
      simp only [sliceForMarker]
      rw [h, if_neg (by simp [hb]), if_neg hov]
  · rfl
  · norm_num +decide [sliceForMarker, scenarioD, itemOverlaps, rebaseItem, min_def, max_def]

/-- Witness for c7_slicer: the Scenario D scene has distinct item ids, and
slicing it by the marker 3000-5000 rewrites the item window to 0-2000. -/
theorem c7_slicer_witness :
    (scenarioD.trackItemsMap.map Prod.fst).Nodup ∧
      sliceForMarker scenarioD ⟨"M", 3000, 5000⟩ =
        ⟨[("i1", ⟨⟨0, 2000⟩⟩)], ["i1"], [⟨["i1"]⟩]⟩ :=
  ⟨by decide, (c7_slicer scenarioD ⟨"M", 3000, 5000⟩ (by decide)).2.2⟩

/-- Claim C10: for a marker with startMs < endMs and a scene whose item
windows satisfy from <= to, every item of the sliced scene has a window
with 0 <= from, from <= to and to <= durationMs, and every id on a sliced
track is a key of the sliced item map. -/
theorem c10_slicer_wellformed (st : EditorState) (marker : ExportMarker)
    (hms : marker.startMs < marker.endMs)
    (hwin : ∀ kv ∈ st.trackItemsMap, kv.2.display.fromMs ≤ kv.2.display.toMs) :
    (∀ kv ∈ (sliceForMarker st marker).trackItemsMap,
      0 ≤ kv.2.display.fromMs ∧ kv.2.display.fromMs ≤ kv.2.display.toMs ∧
        kv.2.display.toMs ≤ marker.endMs - marker.startMs) ∧
    (∀ tr ∈ (sliceForMarker st marker).tracks, ∀ i ∈ tr.items,
      i ∈ (sliceForMarker st marker).trackItemsMap.map Prod.fst) := by
  constructor
  · intro kv hkv
    simp only [sliceForMarker] at hkv
    obtain ⟨kv0, hkv0, hkvx⟩ := List.mem_map.mp hkv
    have hkmem : kv0 ∈ st.trackItemsMap := (List.mem_filter.mp hkv0).1
    have hov : itemOverlaps marker kv0.2 = true := (List.mem_filter.mp hkv0).2
    have hov1 : marker.startMs < kv0.2.display.toMs := by
      have := hov
      simp only [itemOverlaps, Bool.and_eq_true, decide_eq_true_eq] at this
      exact this.1
    have hov2 : kv0.2.display.fromMs < marker.endMs := by
      have := hov
      simp only [itemOverlaps, Bool.and_eq_true, decide_eq_true_eq] at this
      exact this.2
    have hto : kv0.2.display.fromMs ≤ kv0.2.display.toMs := hwin kv0 hkmem
    rw [← hkvx]
    simp only [rebaseItem]
    refine ⟨le_max_left _ _, ?_, min_le_left _ _⟩
    apply max_le
    · apply le_min
      · linarith
      · linarith
    · apply le_min
      · linarith
      · linarith
  · intro tr htr i hi
    simp only [sliceForMarker] at htr
    obtain ⟨tr0, htr0, htrx⟩ := List.mem_map.mp htr
    rw [← htrx] at hi
    simp only at hi
    have hmem := List.mem_filter.mp hi
    have hcontains := hmem.2
    simp only [sliceForMarker]
    have hmem2 : i ∈ ((st.trackItemsMap.filter (fun kv => itemOverlaps marker kv.2)).map
        (fun kv => (kv.1, rebaseItem marker kv.2))).map (fun kv => kv.1) := by
      simpa using hcontains
    simpa using hmem2

/-- Witness for c10_slicer_wellformed at the Scenario D scene and marker
3000-5000. -/
theorem c10_slicer_wellformed_witness :
    (3000 : ℚ) < 5000 ∧
      ∀ kv ∈ (sliceForMarker scenarioD ⟨"M", 3000, 5000⟩).trackItemsMap,
        0 ≤ kv.2.display.fromMs ∧ kv.2.display.fromMs ≤ kv.2.display.toMs ∧
          kv.2.display.toMs ≤ (5000 : ℚ) - 3000 :=
  ⟨by norm_num,
    (c10_slicer_wellformed scenarioD ⟨"M", 3000, 5000⟩ (by norm_num)
      (by
        intro kv hkv
        simp only [scenarioD, List.mem_singleton] at hkv
        rw [hkv]
        norm_num)).1⟩

theorem handleMouseMove_session (fps : ℚ) (s : GestureState) (p : ℚ) :
    (handleMouseMove fps s p).drag = s.drag ∧
      (handleMouseMove fps s p).originalTime = s.originalTime := by
  cases hd : s.drag with
  | none => simp [handleMouseMove, hd]
  | some v => simp [handleMouseMove, hd]

theorem foldl_moves_session (fps : ℚ) (ps : List ℚ) :
    ∀ s : GestureState, ((ps.foldl (handleMouseMove fps) s).drag = s.drag ∧
      (ps.foldl (handleMouseMove fps) s).originalTime = s.originalTime) := by
  induction ps with
  | nil => intro s; exact ⟨rfl, rfl⟩
  | cons p rest ih =>
    intro s
    simp only [List.foldl_cons]
    obtain ⟨h1, h2⟩ := ih (handleMouseMove fps s p)
    obtain ⟨h3, h4⟩ := handleMouseMove_session fps s p
    exact ⟨h1.trans h3, h2.trans h4⟩

theorem foldl_moves_idle (fps : ℚ) (ps : List ℚ) :
    ∀ s : GestureState, s.drag = none → ps.foldl (handleMouseMove fps) s = s := by
  induction ps with
  | nil => intro s _; rfl
  | cons p rest ih =>
    intro s hs
    simp only [List.foldl_cons, handleMouseMove, hs]
    exact ih s hs

theorem filter_by_id {ms : List Marker} {m : Marker}
    (hnd : (ms.map Marker.id).Nodup) (hm : m ∈ ms) :
    ms.filter (fun x => x.id == m.id) = [m] := by
  induction ms with
  | nil => cases hm
  | cons a as ih =>
    have hnd2 : (a.id :: as.map Marker.id).Nodup := hnd
    have hpair := List.nodup_cons.mp hnd2
    rcases List.mem_cons.mp hm with rfl | hm2
    · have hrest : as.filter (fun x => x.id == m.id) = [] := by
        apply List.filter_eq_nil_iff.mpr
        intro x hx
        have hxin : x.id ∈ as.map Marker.id := List.mem_map.mpr ⟨x, hx, rfl⟩
        simp only [beq_iff_eq]
        intro hcon
        rw [hcon] at hxin
        exact hpair.1 hxin
      rw [List.filter_cons_of_pos (by simp), hrest]
    · have haid : a.id ≠ m.id := by
        intro hcon
        apply hpair.1
        rw [hcon]
        exact List.mem_map.mpr ⟨m, hm2, rfl⟩
      rw [List.filter_cons_of_neg (by simpa using haid)]
      exact ih hpair.2 hm2

theorem dragPreview_of_mem {ms : List Marker} {m : Marker}
    (hnd : (ms.map Marker.id).Nodup) (hm : m ∈ ms) (ty : DragType) (p : ℚ) :
    dragPreview ms m.id ty p =
      some (editedEdge ty
        (updOne (dragNeighbors ms m.id).1 (dragNeighbors ms m.id).2 ty p m)) := by
  simp only [dragPreview]
  rw [filter_by_id hnd hm]
  rfl

/-- Claim C8: a drag gesture begun from an idle state restores the playback
time captured at gesture start: after mouse-down on a marker, any sequence
of mouse-move updates and the final mouse-up, the player position equals
the position before the gesture and the session is destroyed.  Meanwhile
each individual mouse-move with an active session on an existing marker
seeks the player to the edited edge of the updated marker quantized to the
nearest frame. -/
theorem c8_gesture_playback (fps : ℚ) (s : GestureState) (mid : String)
    (ty : DragType) (ps : List ℚ) (hidle : s.drag = none) :
    (handleMouseUp (ps.foldl (handleMouseMove fps) (handleMouseDown s mid ty))).playerTime
        = s.playerTime ∧
    (handleMouseUp (ps.foldl (handleMouseMove fps) (handleMouseDown s mid ty))).drag = none ∧
    (∀ (s2 : GestureState) (p : ℚ) (mid2 : String) (ty2 : DragType) (u : Marker),
      s2.drag = some (mid2, ty2) → (s2.markers.map Marker.id).Nodup →
      (dragUpdate s2.markers mid2 ty2 p).find? (fun v => v.id == mid2) = some u →
      (handleMouseMove fps s2 p).playerTime = roundToFrame fps (editedEdge ty2 u)) := by
  have hmain :
      (handleMouseUp (ps.foldl (handleMouseMove fps) (handleMouseDown s mid ty))).playerTime
          = s.playerTime ∧
      (handleMouseUp (ps.foldl (handleMouseMove fps) (handleMouseDown s mid ty))).drag
          = none := by
    cases hfd : s.markers.find? (fun m => m.id == mid) with
    | none =>
      have hdown : handleMouseDown s mid ty = s := by
        simp [handleMouseDown, hfd]
      rw [hdown, foldl_moves_idle fps ps s hidle]
      simp [handleMouseUp, hidle]
    | some m0 =>
      have hdown : handleMouseDown s mid ty =
          { s with drag := some (mid, ty), originalTime := some s.playerTime } := by
        simp [handleMouseDown, hfd]
      obtain ⟨hdr, hot⟩ := foldl_moves_session fps ps (handleMouseDown s mid ty)
      rw [hdown] at hdr hot ⊢
      constructor
      · simp [handleMouseUp, hdr, hot]
      · simp [handleMouseUp, hdr]
  refine ⟨hmain.1, hmain.2, ?_⟩
  intro s2 p mid2 ty2 u hdrag hnd hfind
  by_cases hex : ∃ m ∈ s2.markers, m.id = mid2
  · obtain ⟨m, hm, rfl⟩ := hex
    have hf2 := dragUpdate_find hnd hm ty2 p
    rw [hfind] at hf2
    have hu : u = updOne (dragNeighbors s2.markers m.id).1
        (dragNeighbors s2.markers m.id).2 ty2 p m := Option.some.inj hf2
    have hpv := dragPreview_of_mem hnd hm ty2 p
    simp only [handleMouseMove, hdrag, hpv]
    rw [hu]
  · have hnone : (dragUpdate s2.markers mid2 ty2 p).find? (fun v => v.id == mid2) = none := by
      apply List.find?_eq_none.mpr
      intro x hx
      simp only [dragUpdate] at hx
      obtain ⟨a, ha, hax⟩ := List.mem_map.mp hx
      have haid : a.id ≠ mid2 := fun hc => hex ⟨a, ha, hc⟩
      have hxid : x.id = a.id := by
        rw [← hax]
        simp [haid]
      simp [hxid, haid]
    rw [hnone] at hfind
    cases hfind

/-- Witness for c8_gesture_playback: a resize-right gesture with two moves
on the Scenario A store leaves the player position at its pre-gesture
value 1234. -/
theorem c8_gesture_playback_witness :
    (GestureState.mk scenarioA 1234 none none).drag = none ∧
      (handleMouseUp ([4000, 2500].foldl (handleMouseMove 30)
        (handleMouseDown ⟨scenarioA, 1234, none, none⟩ "A" .resizeRight))).playerTime
        = 1234 :=
  ⟨rfl, (c8_gesture_playback 30 ⟨scenarioA, 1234, none, none⟩ "A" .resizeRight
    [4000, 2500] rfl).1⟩

/-- Snapshot with one marker, for the dirty-flag counterexample. -/
def c9snap : List Marker := [⟨"a", "a", 0, 1000⟩]

/-- Claim C9 as stated is false on the empty live store: deleting the only
marker leaves a live set whose size differs from the snapshot size, yet the
modification-tracking effect reports hasModifications = false, because it
short-circuits to false whenever the live set or the snapshot is empty. -/
theorem c9_counterexample :
    computeHasModifications (deleteMarkers c9snap ["a"]) c9snap = false ∧
      (deleteMarkers c9snap ["a"]).length ≠ c9snap.length := by decide

/-- Claim C9 (amended): when both the live set and the snapshot are
nonempty, every live marker shares its id with a snapshot marker and
snapshot ids are distinct (as after a load), hasModifications is true
exactly when the sizes differ or some shared-id marker changed its startMs
or endMs; when either set is empty the flag is false even if the sizes
differ; and comparing a store against itself (load immediately followed by
save) yields false. -/
theorem c9_dirtyFlag (markers originalMarkers : List Marker)
    (hne1 : markers ≠ []) (hne2 : originalMarkers ≠ [])
    (hids : ∀ m ∈ markers, ∃ o ∈ originalMarkers, o.id = m.id)
    (hnd : (originalMarkers.map Marker.id).Nodup) :
    (computeHasModifications markers originalMarkers = true ↔
      markers.length ≠ originalMarkers.length ∨
        ∃ m ∈ markers, ∃ o ∈ originalMarkers, o.id = m.id ∧
          (o.startMs ≠ m.startMs ∨ o.endMs ≠ m.endMs)) ∧
    computeHasModifications originalMarkers originalMarkers = false := by
  have hie1 : markers.isEmpty = false := by
    cases markers with
    | nil => exact absurd rfl hne1
    | cons a l => rfl
  have hie2 : originalMarkers.isEmpty = false := by
    cases originalMarkers with
    | nil => exact absurd rfl hne2
    | cons a l => rfl
  have hfind : ∀ m ∈ markers, ∃ o ∈ originalMarkers, o.id = m.id ∧
      originalMarkers.find? (fun v => v.id == m.id) = some o := by
    intro m hm
    obtain ⟨o, ho, hoid⟩ := hids m hm
    refine ⟨o, ho, hoid, ?_⟩
    have huniq : ∀ x ∈ originalMarkers, x.id = o.id → x = o := fun x hx hxid =>
      List.inj_on_of_nodup_map hnd hx ho hxid
    have h1 := find?_by_id ho huniq
    rw [hoid] at h1
    exact h1
  constructor
  · simp only [computeHasModifications, hie1, hie2, Bool.or_self, Bool.false_eq_true,
      if_false, Bool.or_eq_true, decide_eq_true_eq, List.any_eq_true]
    apply or_congr Iff.rfl
    constructor
    · rintro ⟨m, hm, hfm⟩
      obtain ⟨o, ho, hoid, hfo⟩ := hfind m hm
      rw [hfo] at hfm
      simp only [Bool.or_eq_true, decide_eq_true_eq] at hfm
      exact ⟨m, hm, o, ho, hoid, hfm⟩
    · rintro ⟨m, hm, o', ho', hoid', hdisj⟩
      obtain ⟨o, ho, hoid, hfo⟩ := hfind m hm
      have hoo : o' = o :=
        List.inj_on_of_nodup_map hnd ho' ho (hoid'.trans hoid.symm)
      refine ⟨m, hm, ?_⟩
      rw [hfo]
      simp only [Bool.or_eq_true, decide_eq_true_eq]
      rw [hoo] at hdisj
      exact hdisj
  · simp only [computeHasModifications, hie2, Bool.or_self, Bool.false_eq_true, if_false]
    apply Bool.or_eq_false_iff.mpr
    constructor
    · simp
    · apply List.any_eq_false.mpr
      intro x hx
      have huniq : ∀ y ∈ originalMarkers, y.id = x.id → y = x := fun y hy hyid =>
        List.inj_on_of_nodup_map hnd hy hx hyid
      have h1 := find?_by_id hx huniq
      rw [h1]
      simp

/-- Witness for c9_dirtyFlag: a one-marker load whose marker was dragged
10 ms to the right sets the flag, and the freshly loaded store is clean. -/
theorem c9_dirtyFlag_witness :
    computeHasModifications [⟨"a", "a", 10, 1010⟩] c9snap = true ∧
      computeHasModifications c9snap c9snap = false := by
  have h := c9_dirtyFlag [⟨"a", "a", 10, 1010⟩] c9snap (by decide) (by decide)
    (by decide) (by decide)
  refine ⟨?_, h.2⟩
  apply h.1.mpr
  right
  refine ⟨⟨"a", "a", 10, 1010⟩, by decide, ⟨"a", "a", 0, 1000⟩, by decide, by decide, ?_⟩
  left
  decide

/-- Well-formed persisted interval entry in one of the three accepted
shapes: an array whose first two elements are numbers, a start/end object,
or a from/to object. -/
def validShape (tf : JVal) : Prop :=
  (∃ s e rest, tf = .arr (.num s :: .num e :: rest)) ∨
  (∃ s e, tf = .obj [("start", .num s), ("end", .num e)]) ∨
  (∃ s e, tf = .obj [("from", .num s), ("to", .num e)])

theorem entryRaw_arr (s e : ℚ) (rest : List JVal) :
    entryRawStart (.arr (.num s :: .num e :: rest)) = .ok (some s) ∧
      entryRawEnd (.arr (.num s :: .num e :: rest)) = .ok (some e) :=
  ⟨rfl, rfl⟩

theorem entryRaw_startEnd (s e : ℚ) :
    entryRawStart (.obj [("start", .num s), ("end", .num e)]) = .ok (some s) ∧
      entryRawEnd (.obj [("start", .num s), ("end", .num e)]) = .ok (some e) := by
  constructor
  · by_cases hs : s = 0
    · subst hs
      rfl
    · simp [entryRawStart, pickField, getField, truthy, toNumber, hs,
        Bind.bind, Except.bind, pure, Except.pure]
  · by_cases he : e = 0
    · subst he
      rfl
    · simp [entryRawEnd, pickField, getField, truthy, toNumber, he,
        Bind.bind, Except.bind, pure, Except.pure]

theorem entryRaw_fromTo (s e : ℚ) :
    entryRawStart (.obj [("from", .num s), ("to", .num e)]) = .ok (some s) ∧
      entryRawEnd (.obj [("from", .num s), ("to", .num e)]) = .ok (some e) := by
  constructor
  · by_cases hs : s = 0
    · subst hs
      rfl
    · simp [entryRawStart, pickField, getField, truthy, toNumber, hs,
        Bind.bind, Except.bind, pure, Except.pure]
  · by_cases he : e = 0
    · subst he
      rfl
    · simp [entryRawEnd, pickField, getField, truthy, toNumber, he,
        Bind.bind, Except.bind, pure, Except.pure]

theorem loadMarkers_valid (gid : String) (fields : List (String × JVal))
    (hv : ∀ q ∈ fields, validShape q.2) :
    loadMarkers gid fields = some (fields.map (fun q => specMarker gid q.1 q.2)) := by
  induction fields with
  | nil => rfl
  | cons a rest ih =>
    obtain ⟨l, tf⟩ := a
    have hva := hv (l, tf) (by simp)
    have hrest := ih (fun q hq => hv q (by simp [hq]))
    have hentry : entryRawStart tf = .ok (some (entrySpec tf).1) ∧
        entryRawEnd tf = .ok (some (entrySpec tf).2) := by
      rcases hva with ⟨s, e, r0, heq⟩ | ⟨s, e, heq⟩ | ⟨s, e, heq⟩
      · replace heq : tf = JVal.arr (JVal.num s :: JVal.num e :: r0) := heq
        rw [heq]
        exact entryRaw_arr s e r0
      · replace heq : tf = JVal.obj [("start", JVal.num s), ("end", JVal.num e)] := heq
        rw [heq]
        exact entryRaw_startEnd s e
      · replace heq : tf = JVal.obj [("from", JVal.num s), ("to", JVal.num e)] := heq
        rw [heq]
        exact entryRaw_fromTo s e
    simp only [loadMarkers, hentry.1, hentry.2, hrest, Option.map_some', List.map_cons]
    rfl

/-- Claim C3 as stated is false on two counts.  A top-level array of
start/end pairs is rejected by the Array.isArray guard and yields no
markers at all instead of two.  Malformed entries are not skipped: a null
entry throws while reading its start field, aborting the whole conversion
(the store stays cleared and the later entries are lost), and a bare
number entry is silently coerced to a zero-width marker 0-0 instead of
being dropped. -/
theorem c3_counterexample :
    loadTimeframes "g" (.arr [.arr [.num 0, .num 2], .arr [.num 3, .num 5]]) = some [] ∧
    loadMarkers "g" [("a", .null), ("b", .obj [("start", .num 1), ("end", .num 2)])] =
      none ∧
    loadMarkers "g" [("a", .num 7)] = some [⟨"g-a", "a", some 0, some 0, "g"⟩] := by
  refine ⟨rfl, rfl, ?_⟩
  norm_num [loadMarkers, entryRawStart, entryRawEnd, pickField, getField, truthy, toNumber,
    Bind.bind, Except.bind, pure, Except.pure]
  decide

/-- Claim C3 (amended): when timeframes is a label-to-entry object mapping,
loading converts every entry in one of the three accepted shapes (array
pair, start/end object, from/to object) to a marker in milliseconds, in
entry order, with the id derived from the group id and label.  A top-level
array yields no markers, a non-null malformed entry is coerced to a 0-0
marker rather than skipped, and a null entry aborts the load. -/
theorem c3_load_shapes (gid : String) (fields : List (String × JVal))
    (hv : ∀ q ∈ fields, validShape q.2) :
    loadTimeframes gid (.obj fields) =
      some (fields.map (fun q => specMarker gid q.1 q.2)) :=
  loadMarkers_valid gid fields hv

/-- Group with one entry of each accepted shape. -/
def c3fields : List (String × JVal) :=
  [("a", .arr [.num 1, .num 2]),
   ("b", .obj [("start", .num 3), ("end", .num 4)]),
   ("c", .obj [("from", .num (1/2)), ("to", .num 6)])]

theorem c3fields_validShape : ∀ q ∈ c3fields, validShape q.2 := by
  intro q hq
  simp only [c3fields, List.mem_cons, List.not_mem_nil, or_false] at hq
  rcases hq with rfl | rfl | rfl
  · exact Or.inl ⟨1, 2, [], rfl⟩
  · exact Or.inr (Or.inl ⟨3, 4, rfl⟩)
  · exact Or.inr (Or.inr ⟨1/2, 6, rfl⟩)

/-- Witness for c3_load_shapes: a group with one entry of each shape loads
to the three expected millisecond markers. -/
theorem c3_load_shapes_witness :
    loadTimeframes "g" (.obj c3fields) =
      some [⟨"g-a", "a", some 1000, some 2000, "g"⟩,
        ⟨"g-b", "b", some 3000, some 4000, "g"⟩,
        ⟨"g-c", "c", some 500, some 6000, "g"⟩] := by
  rw [c3_load_shapes "g" c3fields c3fields_validShape]
  norm_num [c3fields, specMarker, entrySpec]
  decide

/-- Store marker denoted by a well-formed entry, with times in
milliseconds. -/
def storeMarkerSpec (gid label : String) (tf : JVal) : Marker :=
  ⟨gid ++ "-" ++ label, label, (entrySpec tf).1 * 1000, (entrySpec tf).2 * 1000⟩

theorem lmToStore_spec (gid : String) (fields : List (String × JVal)) :
    lmToStore (fields.map (fun q => specMarker gid q.1 q.2)) =
      some (fields.map (fun q => storeMarkerSpec gid q.1 q.2)) := by
  induction fields with
  | nil => rfl
  | cons a rest ih =>
    have hstep : lmToStore ((a :: rest).map (fun q => specMarker gid q.1 q.2)) =
        (lmToStore (rest.map (fun q => specMarker gid q.1 q.2))).map
          (fun tail => storeMarkerSpec gid a.1 a.2 :: tail) := rfl
    rw [hstep, ih]
    rfl

/-- Claim C4: for a timeframes object whose entries are in the accepted
shapes, loading produces defined markers (seconds times 1000), and saving
them back (milliseconds divided by 1000) reproduces the original label to
start/end mapping exactly, in particular within 1 ms after the seconds to
milliseconds conversion. -/
theorem c4_roundTrip (gid : String) (fields : List (String × JVal))
    (hv : ∀ q ∈ fields, validShape q.2) :
    ∃ lms sms, loadTimeframes gid (.obj fields) = some lms ∧
      lmToStore lms = some sms ∧
      saveTimeframes sms = fields.map (fun q => (q.1, entrySpec q.2)) ∧
      ∀ q ∈ fields, ∃ pr ∈ saveTimeframes sms, pr.1 = q.1 ∧
        |1000 * pr.2.1 - 1000 * (entrySpec q.2).1| ≤ 1 ∧
        |1000 * pr.2.2 - 1000 * (entrySpec q.2).2| ≤ 1 := by
  refine ⟨fields.map (fun q => specMarker gid q.1 q.2),
    fields.map (fun q => storeMarkerSpec gid q.1 q.2), ?_, lmToStore_spec gid fields, ?_, ?_⟩
  · exact loadMarkers_valid gid fields hv
  · have hsave : saveTimeframes (fields.map (fun q => storeMarkerSpec gid q.1 q.2)) =
        (fields.map (fun q => storeMarkerSpec gid q.1 q.2)).map
          (fun m => (m.label, (m.startMs / 1000, m.endMs / 1000))) := rfl
    rw [hsave, List.map_map]
    apply map_congr_on
    intro q hq
    simp only [Function.comp, storeMarkerSpec]
    have h1 : (entrySpec q.2).1 * 1000 / 1000 = (entrySpec q.2).1 := by
      field_simp
    have h2 : (entrySpec q.2).2 * 1000 / 1000 = (entrySpec q.2).2 := by
      field_simp
    rw [h1, h2]
  · intro q hq
    refine ⟨(q.1, entrySpec q.2), ?_, rfl, ?_, ?_⟩
    · have hsave : saveTimeframes (fields.map (fun q => storeMarkerSpec gid q.1 q.2)) =
          fields.map (fun q => (q.1, entrySpec q.2)) := by
        have hs : saveTimeframes (fields.map (fun q => storeMarkerSpec gid q.1 q.2)) =
            (fields.map (fun q => storeMarkerSpec gid q.1 q.2)).map
              (fun m => (m.label, (m.startMs / 1000, m.endMs / 1000))) := rfl
        rw [hs, List.map_map]
        apply map_congr_on
        intro r hr
        simp only [Function.comp, storeMarkerSpec]
        have h1 : (entrySpec r.2).1 * 1000 / 1000 = (entrySpec r.2).1 := by field_simp
        have h2 : (entrySpec r.2).2 * 1000 / 1000 = (entrySpec r.2).2 := by field_simp
        rw [h1, h2]
      rw [hsave]
      exact List.mem_map.mpr ⟨q, hq, rfl⟩
    · simp
    · simp

/-- Witness for c4_roundTrip at the three-shape group: loading then saving
reproduces the persisted intervals. -/
theorem c4_roundTrip_witness :
    ∃ lms sms, loadTimeframes "g" (.obj c3fields) = some lms ∧
      lmToStore lms = some sms ∧
      saveTimeframes sms = c3fields.map (fun q => (q.1, entrySpec q.2)) ∧
      ∀ q ∈ c3fields, ∃ pr ∈ saveTimeframes sms, pr.1 = q.1 ∧
        |1000 * pr.2.1 - 1000 * (entrySpec q.2).1| ≤ 1 ∧
        |1000 * pr.2.2 - 1000 * (entrySpec q.2).2| ≤ 1 :=
  c4_roundTrip "g" c3fields c3fields_validShape
